import Mathlib

/-!
Verification of the random non-overlapping placement script
`blender2.8x/20210515_blender_placing_suzannes.py`.

The script copies a base mesh `COPIES` times and places each copy at a
random location and rotation inside a bounded volume, rejecting any
candidate whose bounding-volume hierarchy (BVH) overlaps an already
accepted copy, with at most `MAX_TRYIALS` attempts per copy.

Embedding conventions:
* Python floats are modelled as real numbers.
* The global `random.random()` stream is modelled as a function
  `rng : ℕ → ℝ` together with an explicit index `k` for the next unread
  position; every sampled pose consumes six values (three for the
  location, three for the rotation), exactly in source order.
* The external `mathutils.bvhtree` library is opaque: a `BvhLib B`
  bundles `BVHTree.FromPolygons` and `BVHTree.overlap` (the latter
  returning the list of overlapping index pairs, whose Python truthiness
  the script tests).
* `mathutils.Matrix` / `Euler` arithmetic is embedded with concrete
  4x4 / 3x3 real matrices (Blender XYZ euler order: `Rz * Ry * Rx`).
* Scene/collection handling (`bpy`) is host plumbing outside the core;
  the `copieds` list of the script is the placement set, and the
  per-index failure print is recorded in a `skipped` list.
-/

namespace Placing

open Real

/-- A 3D vector with real components, modelling a `mathutils.Vector`. -/
@[ext]
structure Vec3 where
  x : ℝ
  y : ℝ
  z : ℝ

/-- Componentwise addition of 3D vectors. -/
def Vec3.add (v w : Vec3) : Vec3 :=
  ⟨v.x + w.x, v.y + w.y, v.z + w.z⟩

/-- 3x3 real matrices, as produced by `Euler(...).to_matrix()`. -/
abbrev Mat3 := Matrix (Fin 3) (Fin 3) ℝ

/-- 4x4 real matrices, as used for object world transforms. -/
abbrev Mat4 := Matrix (Fin 4) (Fin 4) ℝ

/-- Decimal digits of `n`, least significant first, driven by explicit
fuel; `digitsAux fuel n` is the digit list whenever `n ≤ fuel`, and `0`
yields the empty list. -/
def digitsAux : ℕ → ℕ → List ℕ
  | 0, _ => []
  | fuel + 1, n => if n = 0 then [] else n % 10 :: digitsAux fuel (n / 10)

/-- Decimal digits of `n`, least significant first (empty for `0`). -/
def digitsLE (n : ℕ) : List ℕ := digitsAux n n

/-- Value of a little-endian decimal digit list. -/
def ofDigitsLE (l : List ℕ) : ℕ := l.foldr (fun d acc => 10 * acc + d) 0

/-- Value of a big-endian decimal digit list. -/
def valBE (l : List ℕ) : ℕ := l.foldl (fun a d => 10 * a + d) 0

/-- Left-pad a digit list with zeros to width 3, mirroring the `03d`
format specifier (numbers with more than three digits are kept as is). -/
def pad3 (l : List ℕ) : List ℕ := List.replicate (3 - l.length) 0 ++ l

/-- The character of a decimal digit (`0` ↦ `'0'`, ..., `9` ↦ `'9'`). -/
def digitChar (d : ℕ) : Char := Char.ofNat (48 + d)

/-- The numeric value of a decimal digit character. -/
def charVal (c : Char) : ℕ := c.toNat - 48

/-- The name the script gives to the `i`-th copy, mirroring the f-string
`f"copied_{i:03d}"` of `main` (zero-padded to width at least 3). -/
def copiedName (i : ℕ) : String :=
  String.mk ("copied_".data ++ (pad3 (digitsLE i).reverse).map digitChar)

/-- The vertex/face data and world transform of the base object, i.e.
what `_create_bvh` reads from `obj.data.vertices`, `obj.data.polygons`
and `obj.matrix_world`. Owned by the host, never mutated by the core. -/
structure Geom where
  verts : List Vec3
  polys : List (List ℕ)
  matrixWorld : Mat4

/-- The opaque external BVH library (`mathutils.bvhtree`): building a
tree from polygons, and the overlap query returning the list of
overlapping index pairs (the script only tests its truthiness). -/
structure BvhLib (B : Type) where
  fromPolygons : List Vec3 → List (List ℕ) → B
  overlap : B → B → List (ℕ × ℕ)

noncomputable section

/-- The translation matrix `Matrix.Translation(location)`. -/
def Translation (v : Vec3) : Mat4 :=
  !![1, 0, 0, v.x;
     0, 1, 0, v.y;
     0, 0, 1, v.z;
     0, 0, 0, 1]

/-- Rotation about the X axis by angle `a`. -/
def rotX (a : ℝ) : Mat3 :=
  !![1, 0, 0;
     0, Real.cos a, -Real.sin a;
     0, Real.sin a, Real.cos a]

/-- Rotation about the Y axis by angle `b`. -/
def rotY (b : ℝ) : Mat3 :=
  !![Real.cos b, 0, Real.sin b;
     0, 1, 0;
     -Real.sin b, 0, Real.cos b]

/-- Rotation about the Z axis by angle `c`. -/
def rotZ (c : ℝ) : Mat3 :=
  !![Real.cos c, -Real.sin c, 0;
     Real.sin c, Real.cos c, 0;
     0, 0, 1]

/-- `Euler(rotation).to_matrix()`: Blender's default XYZ euler order,
rotating about X first, then Y, then Z (matrix `Rz * Ry * Rx`). -/
def eulerToMatrix (r : Vec3) : Mat3 :=
  rotZ r.z * rotY r.y * rotX r.x

/-- `Matrix.to_4x4()`: embed a 3x3 matrix in the upper-left corner of a
4x4 matrix whose last row and column are those of the identity. -/
def to4x4 (m : Mat3) : Mat4 :=
  !![m 0 0, m 0 1, m 0 2, 0;
     m 1 0, m 1 1, m 1 2, 0;
     m 2 0, m 2 1, m 2 2, 0;
     0, 0, 0, 1]

/-- A 3D vector extended homogeneously with `w = 1`. -/
def extendH (v : Vec3) : Fin 4 → ℝ := ![v.x, v.y, v.z, 1]

/-- `mat @ v` for a 4x4 matrix and a 3D vector: Blender extends the
vector with `w = 1`, multiplies, and truncates back to 3D. -/
def applyM4 (m : Mat4) (v : Vec3) : Vec3 :=
  ⟨m.mulVec (extendH v) 0, m.mulVec (extendH v) 1, m.mulVec (extendH v) 2⟩

/-- Application of a 3x3 matrix to a 3D vector. -/
def applyM3 (m : Mat3) (v : Vec3) : Vec3 :=
  ⟨m.mulVec ![v.x, v.y, v.z] 0,
   m.mulVec ![v.x, v.y, v.z] 1,
   m.mulVec ![v.x, v.y, v.z] 2⟩

/-- `ObjWithBvh._create_bvh(obj, location, rotation)`: build the posed
vertex list by applying `obj.matrix_world @ loc_matrix @ rot_matrix`
to every base vertex, keep the face index lists as they are, and hand
both to `BVHTree.FromPolygons`. -/
def create_bvh {B : Type} (L : BvhLib B) (g : Geom) (location rotation : Vec3) : B :=
  let loc_matrix := Translation location
  let rot_matrix := to4x4 (eulerToMatrix rotation)
  let mat := g.matrixWorld * loc_matrix * rot_matrix
  let vert := g.verts.map (fun v => applyM4 mat v)
  let poly := g.polys
  L.fromPolygons vert poly

/-- The `ObjWithBvh` class: the copied object's name and pose together
with the BVH computed at construction time. -/
structure ObjWithBvh (B : Type) where
  name : String
  location : Vec3
  rotation : Vec3
  bvh : B

/-- `get_random_location(max, z_offset)`: three fresh unit samples are
scaled to `x ∈ [-max.x, max.x]`, `y ∈ [-max.y, max.y]` and
`z ∈ [z_offset, max.z]`; `rng k`, `rng (k+1)`, `rng (k+2)` are the three
`random.random()` calls in source order. -/
def get_random_location (rng : ℕ → ℝ) (k : ℕ) (mx : Vec3) (z_offset : ℝ) : Vec3 :=
  ⟨(rng k - 0.5) * mx.x * 2,
   (rng (k + 1) - 0.5) * mx.y * 2,
   rng (k + 2) * (mx.z - z_offset) + z_offset⟩

/-- `get_random_rotation()`: each euler component is a fresh unit sample
mapped through `(r - 0.5) * 4 * pi`. -/
def get_random_rotation (rng : ℕ → ℝ) (k : ℕ) : Vec3 :=
  ⟨(rng k - 0.5) * 4 * Real.pi,
   (rng (k + 1) - 0.5) * 4 * Real.pi,
   (rng (k + 2) - 0.5) * 4 * Real.pi⟩

/-- `is_overlap_two(obj1, obj2)`: true when the BVH overlap query
returns a non-empty list of intersecting pairs (Python truthiness). -/
def is_overlap_two {B : Type} (L : BvhLib B) (obj1 obj2 : ObjWithBvh B) : Bool :=
  if L.overlap obj1.bvh obj2.bvh ≠ [] then true else false

/-- `is_overlap_list(obj, compare_objs)`: scan the list, skipping any
member whose object name equals the candidate's name, and report true
as soon as one remaining member overlaps the candidate. -/
def is_overlap_list {B : Type} (L : BvhLib B) (obj : ObjWithBvh B) :
    List (ObjWithBvh B) → Bool
  | [] => false
  | compare_obj :: rest =>
    if obj.name = compare_obj.name then is_overlap_list L obj rest
    else if is_overlap_two L obj compare_obj then true
    else is_overlap_list L obj rest

/-- Number of copies requested (`COPIES`). -/
def COPIES : ℕ := 20

/-- The placement volume (`PLACING_AREA_RANGE = [5, 5, 10]`): half
extents along X and Y, and the maximal Z. -/
def PLACING_AREA_RANGE : Vec3 := ⟨5, 5, 10⟩

/-- The minimal Z of the placement volume (`Z_OFFSET`). -/
def Z_OFFSET : ℝ := 2

/-- Retry budget per copy (`MAX_TRYIALS`). -/
def MAX_TRYIALS : ℕ := 10

/-- The `while trial <= MAX_TRYIALS` loop of `main` for one copy named
`nm`, starting at RNG position `k` against the accepted list `copieds`:
sample a location then a rotation (six RNG draws), build the BVH, accept
the candidate when `is_overlap_list` reports no overlap, otherwise
increment `trial` and retry.  `fuel` counts the remaining iterations
(`MAX_TRYIALS + 1 - trial` in the source); the result is the accepted
instance (if any), the next RNG position, and the final `trial`. -/
def place_loop {B : Type} (L : BvhLib B) (g : Geom) (nm : String) (area : Vec3)
    (zOff : ℝ) (rng : ℕ → ℝ) :
    ℕ → ℕ → ℕ → List (ObjWithBvh B) → Option (ObjWithBvh B) × ℕ × ℕ
  | 0, trial, k, _ => (none, k, trial)
  | fuel + 1, trial, k, copieds =>
    let location := get_random_location rng k area zOff
    let rotation := get_random_rotation rng (k + 3)
    let copied_obj_with_bvh : ObjWithBvh B :=
      ⟨nm, location, rotation, create_bvh L g location rotation⟩
    if is_overlap_list L copied_obj_with_bvh copieds then
      place_loop L g nm area zOff rng fuel (trial + 1) (k + 6) copieds
    else
      (some copied_obj_with_bvh, k + 6, trial)

/-- The observable outcome of a run: the accepted instances (the
`copieds` list, in acceptance order), the indices reported as not
placeable (the per-index failure prints), and the next RNG position. -/
structure RunResult (B : Type) where
  copieds : List (ObjWithBvh B)
  skipped : List ℕ
  k : ℕ

/-- The `for i in range(0, COPIES)` loop of `main`: each index `i` gets
a fresh copy named `copiedName i` and up to `maxT` placement attempts;
an accepted instance is appended to `copieds`, an exhausted index is
recorded in `skipped` (the source prints and deletes the copy). -/
def placeAll {B : Type} (L : BvhLib B) (g : Geom) (area : Vec3) (zOff : ℝ)
    (rng : ℕ → ℝ) (maxT : ℕ) :
    ℕ → ℕ → ℕ → List (ObjWithBvh B) → List ℕ → RunResult B
  | _, 0, k, copieds, skipped => ⟨copieds, skipped, k⟩
  | i, n + 1, k, copieds, skipped =>
    match place_loop L g (copiedName i) area zOff rng maxT 1 k copieds with
    | (some o, k2, _) =>
      placeAll L g area zOff rng maxT (i + 1) n k2 (copieds ++ [o]) skipped
    | (none, k2, _) =>
      placeAll L g area zOff rng maxT (i + 1) n k2 copieds (skipped ++ [i])

/-- A whole placement run with the engine's parameters made explicit:
`copies` requested instances, `maxT` attempts each, inside `area` above
`zOff`, reading the RNG stream from position 0, starting from an empty
placement set. -/
def run {B : Type} (L : BvhLib B) (g : Geom) (copies maxT : ℕ) (area : Vec3)
    (zOff : ℝ) (rng : ℕ → ℝ) : RunResult B :=
  placeAll L g area zOff rng maxT 0 copies 0 [] []

/-- `main()` with the script's constants. -/
def main {B : Type} (L : BvhLib B) (g : Geom) (rng : ℕ → ℝ) : RunResult B :=
  run L g COPIES MAX_TRYIALS PLACING_AREA_RANGE Z_OFFSET rng

/-- The value a unit-interval sample `r` is mapped to when drawing
uniformly from the interval `[a, b]` (the inverse-CDF map of the uniform
distribution on `[a, b]`). -/
def uniformDraw (a b r : ℝ) : ℝ := a + r * (b - a)

end

/-- A trivial geometry used to instantiate theorems: no vertices, no
faces, identity world transform. -/
noncomputable def g0 : Geom := ⟨[], [], 1⟩

/-- A BVH library whose overlap query never reports an intersection. -/
def LNone : BvhLib Unit := ⟨fun _ _ => (), fun _ _ => []⟩

/-- A BVH library whose overlap query always reports an intersection. -/
def LAll : BvhLib Unit := ⟨fun _ _ => (), fun _ _ => [(0, 0)]⟩

/-- The all-zero RNG stream. -/
def rng0 : ℕ → ℝ := fun _ => 0

/-- Every digit produced by `digitsAux` is a decimal digit. -/
theorem digitsAux_lt_ten : ∀ fuel n d, d ∈ digitsAux fuel n → d < 10 := by
  intro fuel
  induction fuel with
  | zero => intro n d h; simp [digitsAux] at h
  | succ fuel ih =>
    intro n d h
    by_cases hn : n = 0
    · simp [digitsAux, hn] at h
    · simp only [digitsAux, if_neg hn, List.mem_cons] at h
      rcases h with h | h
      · omega
      · exact ih _ _ h

/-- `digitsAux` is value-correct as soon as the fuel dominates `n`. -/
theorem ofDigitsLE_digitsAux : ∀ fuel n, n ≤ fuel → ofDigitsLE (digitsAux fuel n) = n := by
  intro fuel
  induction fuel with
  | zero => intro n h; interval_cases n; simp [digitsAux, ofDigitsLE]
  | succ fuel ih =>
    intro n h
    by_cases hn : n = 0
    · simp [digitsAux, hn, ofDigitsLE]
    · have hdiv : n / 10 ≤ fuel := by omega
      simp only [digitsAux, if_neg hn, ofDigitsLE, List.foldr_cons]
      have := ih (n / 10) hdiv
      simp only [ofDigitsLE] at this
      rw [this]
      omega

/-- The little-endian digits of `n` evaluate back to `n`. -/
theorem ofDigitsLE_digitsLE (n : ℕ) : ofDigitsLE (digitsLE n) = n :=
  ofDigitsLE_digitsAux n n le_rfl

/-- Reading a digit list big-endian after reversing it gives its
little-endian value. -/
theorem valBE_reverse (l : List ℕ) : valBE l.reverse = ofDigitsLE l := by
  simp only [valBE, ofDigitsLE, List.foldl_reverse]

/-- Leading zeros do not change the big-endian value. -/
theorem valBE_pad3 (l : List ℕ) : valBE (pad3 l) = valBE l := by
  simp only [pad3, valBE, List.foldl_append]
  congr 1
  generalize 3 - l.length = m
  induction m with
  | zero => rfl
  | succ m ih => simpa [List.replicate_succ] using ih

/-- Digit characters decode to the digit they encode. -/
theorem charVal_digitChar : ∀ d < 10, charVal (digitChar d) = d := by decide

/-- Decoding the character encoding of a digit list is the identity. -/
theorem map_charVal_digitChar (l : List ℕ) (h : ∀ d ∈ l, d < 10) :
    (l.map digitChar).map charVal = l := by
  induction l with
  | nil => rfl
  | cons d rest ih =>
    simp only [List.map_cons, List.cons.injEq]
    exact ⟨charVal_digitChar d (h d (List.mem_cons_self d rest)),
      ih fun e he => h e (List.mem_cons_of_mem d he)⟩

/-- Every entry of the padded digit list of `i` is a decimal digit. -/
theorem pad3_digits_lt_ten (i : ℕ) : ∀ d ∈ pad3 (digitsLE i).reverse, d < 10 := by
  intro d hd
  simp only [pad3, List.mem_append, List.mem_replicate, List.mem_reverse] at hd
  rcases hd with hd | hd
  · omega
  · exact digitsAux_lt_ten i i d hd

/-- Distinct copy indices get distinct object names. -/
theorem copiedName_injective : Function.Injective copiedName := by
  intro i j h
  have hdata : "copied_".data ++ (pad3 (digitsLE i).reverse).map digitChar
      = "copied_".data ++ (pad3 (digitsLE j).reverse).map digitChar :=
    congrArg String.data h
  have h2 := List.append_cancel_left hdata
  have h3 := congrArg (fun l => valBE (l.map charVal)) h2
  simp only [map_charVal_digitChar _ (pad3_digits_lt_ten i),
    map_charVal_digitChar _ (pad3_digits_lt_ten j)] at h3
  rwa [valBE_pad3, valBE_pad3, valBE_reverse, valBE_reverse,
    ofDigitsLE_digitsLE, ofDigitsLE_digitsLE] at h3

/-- `is_overlap_list` reports no overlap exactly when every member of
the list either shares the candidate's name (and is skipped) or does not
overlap it. -/
theorem is_overlap_list_eq_false {B : Type} (L : BvhLib B) (o : ObjWithBvh B) :
    ∀ l : List (ObjWithBvh B),
      (is_overlap_list L o l = false ↔
        ∀ c ∈ l, o.name = c.name ∨ is_overlap_two L o c = false) := by
  intro l
  induction l with
  | nil => simp [is_overlap_list]
  | cons c rest ih =>
    by_cases hn : o.name = c.name
    · simp only [is_overlap_list, if_pos hn, ih, List.mem_cons]
      constructor
      · rintro h e (rfl | he)
        · exact Or.inl hn
        · exact h e he
      · intro h e he
        exact h e (Or.inr he)
    · cases ho : is_overlap_two L o c with
      | true =>
        simp only [is_overlap_list, if_neg hn, ho, if_true]
        constructor
        · intro h; cases h
        · intro h
          rcases h c (List.mem_cons_self c rest) with h1 | h1
          · exact absurd h1 hn
          · rw [ho] at h1; cases h1
      | false =>
        simp only [is_overlap_list, if_neg hn, ho, Bool.false_eq_true, if_false, ih,
          List.mem_cons]
        constructor
        · rintro h e (rfl | he)
          · exact Or.inr ho
          · exact h e he
        · intro h e he
          exact h e (Or.inr he)

/-- The retry loop advances the RNG position by six values per sampled
pose and samples at most `fuel` poses. -/
theorem place_loop_k {B : Type} (L : BvhLib B) (g : Geom) (nm : String) (area : Vec3)
    (zOff : ℝ) (rng : ℕ → ℝ) :
    ∀ fuel trial k copieds, ∃ t, t ≤ fuel ∧
      (place_loop L g nm area zOff rng fuel trial k copieds).2.1 = k + 6 * t := by
  intro fuel
  induction fuel with
  | zero => intro trial k copieds; exact ⟨0, le_rfl, rfl⟩
  | succ fuel ih =>
    intro trial k copieds
    simp only [place_loop]
    split
    · obtain ⟨t, ht, he⟩ := ih (trial + 1) (k + 6) copieds
      exact ⟨t + 1, by omega, by rw [he]; ring⟩
    · exact ⟨1, by omega, by ring⟩

/-- An accepted instance carries the name it was sampled for and passed
the overlap test against the whole current placement set. -/
theorem place_loop_some {B : Type} (L : BvhLib B) (g : Geom) (nm : String) (area : Vec3)
    (zOff : ℝ) (rng : ℕ → ℝ) :
    ∀ fuel trial k copieds o k2 tf,
      place_loop L g nm area zOff rng fuel trial k copieds = (some o, k2, tf) →
      o.name = nm ∧ is_overlap_list L o copieds = false := by
  intro fuel
  induction fuel with
  | zero => intro trial k copieds o k2 tf h; simp [place_loop] at h
  | succ fuel ih =>
    intro trial k copieds o k2 tf h
    simp only [place_loop] at h
    split at h
    · exact ih _ _ _ _ _ _ h
    · rename_i hov
      simp only [Prod.mk.injEq, Option.some.injEq] at h
      obtain ⟨rfl, -, -⟩ := h
      exact ⟨rfl, Bool.not_eq_true _ ▸ hov⟩

/-- With at least one attempt available, the retry loop consumes at
least one pose (six RNG values). -/
theorem place_loop_k_ge {B : Type} (L : BvhLib B) (g : Geom) (nm : String) (area : Vec3)
    (zOff : ℝ) (rng : ℕ → ℝ) :
    ∀ fuel trial k copieds, 1 ≤ fuel →
      k + 6 ≤ (place_loop L g nm area zOff rng fuel trial k copieds).2.1 := by
  intro fuel
  induction fuel with
  | zero => intro trial k copieds h; omega
  | succ fuel ih =>
    intro trial k copieds _
    simp only [place_loop]
    split
    · obtain ⟨t, -, he⟩ := place_loop_k L g nm area zOff rng fuel (trial + 1) (k + 6) copieds
      omega
    · simp

/-- Over `n` indices the run advances the RNG position by at most
`6 * (n * maxT)` values. -/
theorem placeAll_k_le {B : Type} (L : BvhLib B) (g : Geom) (area : Vec3) (zOff : ℝ)
    (rng : ℕ → ℝ) (maxT : ℕ) :
    ∀ n i k copieds skipped,
      (placeAll L g area zOff rng maxT i n k copieds skipped).k ≤ k + 6 * (n * maxT) := by
  intro n
  induction n with
  | zero => intro i k copieds skipped; simp [placeAll]
  | succ n ih =>
    intro i k copieds skipped
    obtain ⟨t, ht, he⟩ := place_loop_k L g (copiedName i) area zOff rng maxT 1 k copieds
    rcases hpl : place_loop L g (copiedName i) area zOff rng maxT 1 k copieds with ⟨res, k2, tf⟩
    rw [hpl] at he
    simp only at he
    cases res with
    | some o =>
      have hih := ih (i + 1) k2 (copieds ++ [o]) skipped
      simp only [placeAll, hpl, Nat.succ_mul]
      omega
    | none =>
      have hih := ih (i + 1) k2 copieds (skipped ++ [i])
      simp only [placeAll, hpl, Nat.succ_mul]
      omega

/-- The RNG position never moves backwards over a run. -/
theorem placeAll_k_ge {B : Type} (L : BvhLib B) (g : Geom) (area : Vec3) (zOff : ℝ)
    (rng : ℕ → ℝ) (maxT : ℕ) :
    ∀ n i k copieds skipped,
      k ≤ (placeAll L g area zOff rng maxT i n k copieds skipped).k := by
  intro n
  induction n with
  | zero => intro i k copieds skipped; simp [placeAll]
  | succ n ih =>
    intro i k copieds skipped
    obtain ⟨t, ht, he⟩ := place_loop_k L g (copiedName i) area zOff rng maxT 1 k copieds
    rcases hpl : place_loop L g (copiedName i) area zOff rng maxT 1 k copieds with ⟨res, k2, tf⟩
    rw [hpl] at he
    simp only at he
    cases res with
    | some o =>
      have hih := ih (i + 1) k2 (copieds ++ [o]) skipped
      simp only [placeAll, hpl]
      omega
    | none =>
      have hih := ih (i + 1) k2 copieds (skipped ++ [i])
      simp only [placeAll, hpl]
      omega

/-- Each loop index appends at most one accepted instance. -/
theorem placeAll_length {B : Type} (L : BvhLib B) (g : Geom) (area : Vec3) (zOff : ℝ)
    (rng : ℕ → ℝ) (maxT : ℕ) :
    ∀ n i k copieds skipped,
      (placeAll L g area zOff rng maxT i n k copieds skipped).copieds.length ≤
        copieds.length + n := by
  intro n
  induction n with
  | zero => intro i k copieds skipped; simp [placeAll]
  | succ n ih =>
    intro i k copieds skipped
    rcases hpl : place_loop L g (copiedName i) area zOff rng maxT 1 k copieds with ⟨res, k2, tf⟩
    cases res with
    | some o =>
      have hih := ih (i + 1) k2 (copieds ++ [o]) skipped
      simp only [placeAll, hpl]
      simp only [List.length_append, List.length_singleton] at hih
      omega
    | none =>
      have hih := ih (i + 1) k2 copieds (skipped ++ [i])
      simp only [placeAll, hpl]
      omega

/-- Every loop index ends up either accepted or reported: acceptances
and skips together account exactly for the `n` indices processed. -/
theorem placeAll_count {B : Type} (L : BvhLib B) (g : Geom) (area : Vec3) (zOff : ℝ)
    (rng : ℕ → ℝ) (maxT : ℕ) :
    ∀ n i k copieds skipped,
      (placeAll L g area zOff rng maxT i n k copieds skipped).copieds.length +
        (placeAll L g area zOff rng maxT i n k copieds skipped).skipped.length =
        copieds.length + skipped.length + n := by
  intro n
  induction n with
  | zero => intro i k copieds skipped; simp [placeAll]
  | succ n ih =>
    intro i k copieds skipped
    rcases hpl : place_loop L g (copiedName i) area zOff rng maxT 1 k copieds with ⟨res, k2, tf⟩
    cases res with
    | some o =>
      have hih := ih (i + 1) k2 (copieds ++ [o]) skipped
      simp only [placeAll, hpl]
      simp only [List.length_append, List.length_singleton] at hih
      omega
    | none =>
      have hih := ih (i + 1) k2 copieds (skipped ++ [i])
      simp only [placeAll, hpl]
      simp only [List.length_append, List.length_singleton] at hih
      omega

/-- Indices reported during the rest of a run either were already
reported or are at least the current loop index. -/
theorem placeAll_skipped_mem {B : Type} (L : BvhLib B) (g : Geom) (area : Vec3) (zOff : ℝ)
    (rng : ℕ → ℝ) (maxT : ℕ) :
    ∀ n i k copieds skipped x,
      x ∈ (placeAll L g area zOff rng maxT i n k copieds skipped).skipped →
      x ∈ skipped ∨ i ≤ x := by
  intro n
  induction n with
  | zero => intro i k copieds skipped x hx; simp only [placeAll] at hx; exact Or.inl hx
  | succ n ih =>
    intro i k copieds skipped x hx
    rcases hpl : place_loop L g (copiedName i) area zOff rng maxT 1 k copieds with ⟨res, k2, tf⟩
    cases res with
    | some o =>
      simp only [placeAll, hpl] at hx
      rcases ih (i + 1) k2 (copieds ++ [o]) skipped x hx with h | h
      · exact Or.inl h
      · exact Or.inr (by omega)
    | none =>
      simp only [placeAll, hpl] at hx
      rcases ih (i + 1) k2 copieds (skipped ++ [i]) x hx with h | h
      · rcases List.mem_append.mp h with h1 | h1
        · exact Or.inl h1
        · simp only [List.mem_singleton] at h1
          exact Or.inr (by omega)
      · exact Or.inr (by omega)

/-- The 4x4 embedding of a rotation acts on a homogeneous vector as the
3x3 rotation acts on the underlying 3D vector. -/
theorem to4x4_mulVec (m : Mat3) (v : Vec3) :
    (to4x4 m).mulVec (extendH v) = extendH (applyM3 m v) := by
  funext idx
  fin_cases idx <;>
    simp [to4x4, applyM3, extendH, Matrix.mulVec, Matrix.dotProduct, Fin.sum_univ_four,
      Fin.sum_univ_three, Matrix.vecHead, Matrix.vecTail, Function.comp]

/-- The translation matrix acts on a homogeneous vector by adding the
translation to the underlying 3D vector. -/
theorem Translation_mulVec (l : Vec3) (w : Vec3) :
    (Translation l).mulVec (extendH w) = extendH (Vec3.add w l) := by
  funext idx
  fin_cases idx <;>
    simp [Translation, Vec3.add, extendH, Matrix.mulVec, Matrix.dotProduct,
      Fin.sum_univ_four, Matrix.vecHead, Matrix.vecTail, Function.comp]

/-- The combined matrix of `_create_bvh` acts on a base vertex by first
rotating it, then translating it, then applying the base transform. -/
theorem applyM4_combined (mw : Mat4) (location rotation : Vec3) (v : Vec3) :
    applyM4 (mw * Translation location * to4x4 (eulerToMatrix rotation)) v =
      applyM4 mw (Vec3.add (applyM3 (eulerToMatrix rotation) v) location) := by
  simp only [applyM4, ← Matrix.mulVec_mulVec, to4x4_mulVec, Translation_mulVec]

/-- Accepted instances of the rest of a run, beyond the ones already in
hand, bear the name of some index at least the current one that is not
reported as skipped, provided every already-reported index is below the
current one. -/
theorem placeAll_copieds_mem {B : Type} (L : BvhLib B) (g : Geom) (area : Vec3) (zOff : ℝ)
    (rng : ℕ → ℝ) (maxT : ℕ) :
    ∀ n i k copieds skipped, (∀ x ∈ skipped, x < i) →
      ∀ c ∈ (placeAll L g area zOff rng maxT i n k copieds skipped).copieds,
        c ∈ copieds ∨ ∃ j, i ≤ j ∧ c.name = copiedName j ∧
          j ∉ (placeAll L g area zOff rng maxT i n k copieds skipped).skipped := by
  intro n
  induction n with
  | zero =>
    intro i k copieds skipped _ c hc
    simp only [placeAll] at hc
    exact Or.inl hc
  | succ n ih =>
    intro i k copieds skipped hs c hc
    rcases hpl : place_loop L g (copiedName i) area zOff rng maxT 1 k copieds with ⟨res, k2, tf⟩
    cases res with
    | some o =>
      have honame := (place_loop_some L g (copiedName i) area zOff rng maxT 1 k copieds
        o k2 tf hpl).1
      simp only [placeAll, hpl] at hc ⊢
      rcases ih (i + 1) k2 (copieds ++ [o]) skipped
          (fun x hx => Nat.lt_succ_of_lt (hs x hx)) c hc with h | ⟨j, hj, hn, hns⟩
      · rcases List.mem_append.mp h with h1 | h1
        · exact Or.inl h1
        · simp only [List.mem_singleton] at h1
          refine Or.inr ⟨i, le_rfl, by rw [h1]; exact honame, fun hmem => ?_⟩
          rcases placeAll_skipped_mem L g area zOff rng maxT n (i + 1) k2 (copieds ++ [o])
              skipped i hmem with h2 | h2
          · exact absurd (hs i h2) (lt_irrefl i)
          · omega
      · exact Or.inr ⟨j, by omega, hn, hns⟩
    | none =>
      simp only [placeAll, hpl] at hc ⊢
      have hs2 : ∀ x ∈ skipped ++ [i], x < i + 1 := by
        intro x hx
        rcases List.mem_append.mp hx with h1 | h1
        · exact Nat.lt_succ_of_lt (hs x h1)
        · simp only [List.mem_singleton] at h1
          omega
      rcases ih (i + 1) k2 copieds (skipped ++ [i]) hs2 c hc with h | ⟨j, hj, hn, hns⟩
      · exact Or.inl h
      · exact Or.inr ⟨j, by omega, hn, hns⟩

/-- The non-overlap invariant is preserved over a run: when the overlap
test is symmetric, every already-accepted instance bears the name of an
earlier index, and the placement set in hand is pairwise non-overlapping,
the final placement set is pairwise non-overlapping as well. -/
theorem placeAll_pairwise {B : Type} (L : BvhLib B)
    (hsym : ∀ a b : ObjWithBvh B, is_overlap_two L a b = is_overlap_two L b a)
    (g : Geom) (area : Vec3) (zOff : ℝ) (rng : ℕ → ℝ) (maxT : ℕ) :
    ∀ n i k copieds skipped,
      (∀ c ∈ copieds, ∃ j, j < i ∧ c.name = copiedName j) →
      List.Pairwise
        (fun a b => is_overlap_two L a b = false ∧ is_overlap_two L b a = false) copieds →
      List.Pairwise
        (fun a b => is_overlap_two L a b = false ∧ is_overlap_two L b a = false)
        (placeAll L g area zOff rng maxT i n k copieds skipped).copieds := by
  intro n
  induction n with
  | zero =>
    intro i k copieds skipped _ hp
    simpa [placeAll] using hp
  | succ n ih =>
    intro i k copieds skipped hname hp
    rcases hpl : place_loop L g (copiedName i) area zOff rng maxT 1 k copieds with ⟨res, k2, tf⟩
    cases res with
    | some o =>
      obtain ⟨honame, hov⟩ :=
        place_loop_some L g (copiedName i) area zOff rng maxT 1 k copieds o k2 tf hpl
      simp only [placeAll, hpl]
      apply ih (i + 1) k2 (copieds ++ [o]) skipped
      · intro c hc
        rcases List.mem_append.mp hc with h1 | h1
        · obtain ⟨j, hj, hn⟩ := hname c h1
          exact ⟨j, by omega, hn⟩
        · simp only [List.mem_singleton] at h1
          subst h1
          exact ⟨i, Nat.lt_succ_self i, honame⟩
      · rw [List.pairwise_append]
        refine ⟨hp, List.pairwise_singleton _ _, ?_⟩
        intro a ha b hb
        simp only [List.mem_singleton] at hb
        rw [hb]
        rcases (is_overlap_list_eq_false L o copieds).mp hov a ha with heq | hfalse
        · obtain ⟨j, hj, hn⟩ := hname a ha
          rw [honame, hn] at heq
          have := copiedName_injective heq
          omega
        · exact ⟨(hsym a o).trans hfalse, hfalse⟩
    | none =>
      simp only [placeAll, hpl]
      apply ih (i + 1) k2 copieds (skipped ++ [i])
      · intro c hc
        obtain ⟨j, hj, hn⟩ := hname c hc
        exact ⟨j, by omega, hn⟩
      · exact hp

/-- The retry loop for one index only reads the RNG stream strictly
below position `k + 6 * fuel`. -/
theorem place_loop_congr {B : Type} (L : BvhLib B) (g : Geom) (nm : String) (area : Vec3)
    (zOff : ℝ) (rng1 rng2 : ℕ → ℝ) :
    ∀ fuel trial k copieds, (∀ m, m < k + 6 * fuel → rng1 m = rng2 m) →
      place_loop L g nm area zOff rng1 fuel trial k copieds =
        place_loop L g nm area zOff rng2 fuel trial k copieds := by
  intro fuel
  induction fuel with
  | zero => intro trial k copieds _; rfl
  | succ fuel ih =>
    intro trial k copieds h
    have hloc : get_random_location rng1 k area zOff = get_random_location rng2 k area zOff := by
      simp only [get_random_location]
      rw [h k (by omega), h (k + 1) (by omega), h (k + 2) (by omega)]
    have hrot : get_random_rotation rng1 (k + 3) = get_random_rotation rng2 (k + 3) := by
      simp only [get_random_rotation]
      rw [h (k + 3) (by omega), h (k + 4) (by omega), h (k + 5) (by omega)]
    simp only [place_loop, hloc, hrot]
    split
    · exact ih (trial + 1) (k + 6) copieds (fun m hm => h m (by omega))
    · rfl

/-- A whole run only reads the RNG stream strictly below position
`k + 6 * (n * maxT)`. -/
theorem placeAll_congr {B : Type} (L : BvhLib B) (g : Geom) (area : Vec3) (zOff : ℝ)
    (maxT : ℕ) (rng1 rng2 : ℕ → ℝ) :
    ∀ n i k copieds skipped, (∀ m, m < k + 6 * (n * maxT) → rng1 m = rng2 m) →
      placeAll L g area zOff rng1 maxT i n k copieds skipped =
        placeAll L g area zOff rng2 maxT i n k copieds skipped := by
  intro n
  induction n with
  | zero => intro i k copieds skipped _; rfl
  | succ n ih =>
    intro i k copieds skipped h
    have hsm : (n + 1) * maxT = n * maxT + maxT := Nat.succ_mul n maxT
    have hpl_eq := place_loop_congr L g (copiedName i) area zOff rng1 rng2 maxT 1 k copieds
      (fun m hm => h m (by omega))
    rcases hpl : place_loop L g (copiedName i) area zOff rng1 maxT 1 k copieds with ⟨res, k2, tf⟩
    have hpl2 : place_loop L g (copiedName i) area zOff rng2 maxT 1 k copieds = (res, k2, tf) := by
      rw [← hpl_eq, hpl]
    obtain ⟨t, ht, hkt⟩ := place_loop_k L g (copiedName i) area zOff rng1 maxT 1 k copieds
    rw [hpl] at hkt
    simp only at hkt
    have hrest : ∀ m, m < k2 + 6 * (n * maxT) → rng1 m = rng2 m := by
      intro m hm
      exact h m (by omega)
    cases res with
    | some o =>
      simp only [placeAll, hpl, hpl2]
      exact ih (i + 1) k2 (copieds ++ [o]) skipped hrest
    | none =>
      simp only [placeAll, hpl, hpl2]
      exact ih (i + 1) k2 copieds (skipped ++ [i]) hrest

/-- Claim C1: for every pair of distinct accepted instances in the
`copieds` list after the run completes, the overlap test between their
overlap structures returns false; the invariant is maintained purely by
construction, a candidate being appended only when `is_overlap_list`
reports no overlap against every existing member (the overlap query is
assumed symmetric, as the BVH library contract states). -/
theorem claim_C1_non_overlap_invariant {B : Type} (L : BvhLib B)
    (hsym : ∀ a b : ObjWithBvh B, is_overlap_two L a b = is_overlap_two L b a)
    (g : Geom) (copies maxT : ℕ) (area : Vec3) (zOff : ℝ) (rng : ℕ → ℝ) :
    List.Pairwise
      (fun a b => is_overlap_two L a b = false ∧ is_overlap_two L b a = false)
      (run L g copies maxT area zOff rng).copieds := by
  simp only [run]
  apply placeAll_pairwise L hsym g area zOff rng maxT copies 0 0 [] []
  · intro c hc
    cases hc
  · exact List.Pairwise.nil

/-- Witness for claim C1: a concrete run with a symmetric (never
overlapping) library accepts two instances, pairwise non-overlapping. -/
theorem claim_C1_witness :
    (∀ a b : ObjWithBvh Unit, is_overlap_two LNone a b = is_overlap_two LNone b a) ∧
    List.Pairwise
      (fun a b => is_overlap_two LNone a b = false ∧ is_overlap_two LNone b a = false)
      (run LNone g0 2 1 PLACING_AREA_RANGE Z_OFFSET rng0).copieds :=
  ⟨fun _ _ => rfl,
    claim_C1_non_overlap_invariant LNone (fun _ _ => rfl) g0 2 1 PLACING_AREA_RANGE Z_OFFSET rng0⟩

/-- Claim C2: the world vertices used to build the overlap structure are
the base vertices transformed by
`baseTransform * Translation(location) * Rotation(rotation)` (the euler
rotation as a single 4x4 matrix) — equivalently, each base vertex is
rotated, then translated, then mapped through the base transform — and
the face index lists are passed through unchanged from the base mesh. -/
theorem claim_C2_posed_geometry {B : Type} (L : BvhLib B) (g : Geom)
    (location rotation : Vec3) :
    create_bvh L g location rotation =
      L.fromPolygons
        (g.verts.map (fun v =>
          applyM4 (g.matrixWorld * Translation location * to4x4 (eulerToMatrix rotation)) v))
        g.polys ∧
    create_bvh L g location rotation =
      L.fromPolygons
        (g.verts.map (fun v =>
          applyM4 g.matrixWorld (Vec3.add (applyM3 (eulerToMatrix rotation) v) location)))
        g.polys := by
  refine ⟨rfl, ?_⟩
  simp only [create_bvh, applyM4_combined]

/-- Counterexample to claim C3 as stated: the x component produced from
the unit sample `3/4` is the uniform draw from `[-2π, 2π]` at `3/4`,
namely `π`, and not the uniform draw from `[-2·2π, 2·2π]` at `3/4`,
which would be `2π`. -/
theorem claim_C3_counterexample :
    (get_random_rotation (fun _ => 3 / 4) 0).x
      = uniformDraw (-(2 * Real.pi)) (2 * Real.pi) (3 / 4) ∧
    (get_random_rotation (fun _ => 3 / 4) 0).x
      ≠ uniformDraw (-(2 * (2 * Real.pi))) (2 * (2 * Real.pi)) (3 / 4) := by
  constructor
  · simp only [get_random_rotation, uniformDraw]
    norm_num
    ring
  · simp only [get_random_rotation, uniformDraw]
    intro h
    norm_num at h
    ring_nf at h
    exact Real.pi_ne_zero (by linarith)

/-- Claim C3 as amended: each of the three euler components is drawn
uniformly and independently from `[-2π, 2π]` (up to one full turn in
either direction): it lies in that interval and equals the uniform
inverse-CDF draw from it at the corresponding fresh unit sample. -/
theorem claim_C3_amended (rng : ℕ → ℝ) (k : ℕ) (hr : ∀ m, 0 ≤ rng m ∧ rng m < 1) :
    ((get_random_rotation rng k).x ∈ Set.Icc (-(2 * Real.pi)) (2 * Real.pi) ∧
     (get_random_rotation rng k).y ∈ Set.Icc (-(2 * Real.pi)) (2 * Real.pi) ∧
     (get_random_rotation rng k).z ∈ Set.Icc (-(2 * Real.pi)) (2 * Real.pi)) ∧
    ((get_random_rotation rng k).x = uniformDraw (-(2 * Real.pi)) (2 * Real.pi) (rng k) ∧
     (get_random_rotation rng k).y = uniformDraw (-(2 * Real.pi)) (2 * Real.pi) (rng (k + 1)) ∧
     (get_random_rotation rng k).z = uniformDraw (-(2 * Real.pi)) (2 * Real.pi) (rng (k + 2))) := by
  have hpi := Real.pi_pos
  obtain ⟨h0, h1⟩ := hr k
  obtain ⟨h2, h3⟩ := hr (k + 1)
  obtain ⟨h4, h5⟩ := hr (k + 2)
  simp only [get_random_rotation, uniformDraw, Set.mem_Icc]
  norm_num
  refine ⟨⟨⟨?_, ?_⟩, ⟨?_, ?_⟩, ?_, ?_⟩, ?_, ?_, ?_⟩
  · nlinarith [mul_nonneg h0 hpi.le]
  · nlinarith [mul_nonneg h0 hpi.le, mul_le_mul_of_nonneg_right h1.le hpi.le]
  · nlinarith [mul_nonneg h2 hpi.le]
  · nlinarith [mul_nonneg h2 hpi.le, mul_le_mul_of_nonneg_right h3.le hpi.le]
  · nlinarith [mul_nonneg h4 hpi.le]
  · nlinarith [mul_nonneg h4 hpi.le, mul_le_mul_of_nonneg_right h5.le hpi.le]
  · ring
  · ring
  · ring

/-- Witness for the amended claim C3 at the all-zero RNG stream. -/
theorem claim_C3_witness :
    (∀ m, 0 ≤ rng0 m ∧ rng0 m < 1) ∧
    (((get_random_rotation rng0 0).x ∈ Set.Icc (-(2 * Real.pi)) (2 * Real.pi) ∧
      (get_random_rotation rng0 0).y ∈ Set.Icc (-(2 * Real.pi)) (2 * Real.pi) ∧
      (get_random_rotation rng0 0).z ∈ Set.Icc (-(2 * Real.pi)) (2 * Real.pi)) ∧
     ((get_random_rotation rng0 0).x = uniformDraw (-(2 * Real.pi)) (2 * Real.pi) (rng0 0) ∧
      (get_random_rotation rng0 0).y = uniformDraw (-(2 * Real.pi)) (2 * Real.pi) (rng0 1) ∧
      (get_random_rotation rng0 0).z = uniformDraw (-(2 * Real.pi)) (2 * Real.pi) (rng0 2))) :=
  ⟨fun m => by constructor <;> norm_num [rng0],
    claim_C3_amended rng0 0 (fun m => by constructor <;> norm_num [rng0])⟩

/-- Claim C4: each coordinate returned by the location sampler lies in
its configured interval — `x ∈ [-halfExtentX, halfExtentX]`,
`y ∈ [-halfExtentY, halfExtentY]`, `z ∈ [zOffset, zMax]` — and is the
uniform inverse-CDF draw from that interval at the corresponding fresh
unit sample. -/
theorem claim_C4_location_bounds (rng : ℕ → ℝ) (k : ℕ) (area : Vec3) (z_offset : ℝ)
    (hr : ∀ m, 0 ≤ rng m ∧ rng m < 1) (hx : 0 ≤ area.x) (hy : 0 ≤ area.y)
    (hz : z_offset ≤ area.z) :
    ((get_random_location rng k area z_offset).x ∈ Set.Icc (-area.x) area.x ∧
     (get_random_location rng k area z_offset).y ∈ Set.Icc (-area.y) area.y ∧
     (get_random_location rng k area z_offset).z ∈ Set.Icc z_offset area.z) ∧
    ((get_random_location rng k area z_offset).x = uniformDraw (-area.x) area.x (rng k) ∧
     (get_random_location rng k area z_offset).y = uniformDraw (-area.y) area.y (rng (k + 1)) ∧
     (get_random_location rng k area z_offset).z = uniformDraw z_offset area.z (rng (k + 2))) := by
  obtain ⟨h0, h1⟩ := hr k
  obtain ⟨h2, h3⟩ := hr (k + 1)
  obtain ⟨h4, h5⟩ := hr (k + 2)
  simp only [get_random_location, uniformDraw, Set.mem_Icc]
  norm_num
  refine ⟨⟨⟨?_, ?_⟩, ⟨?_, ?_⟩, ?_, ?_⟩, ?_, ?_, ?_⟩
  · nlinarith [mul_nonneg h0 hx]
  · nlinarith [mul_nonneg h0 hx, mul_le_mul_of_nonneg_right h1.le hx]
  · nlinarith [mul_nonneg h2 hy]
  · nlinarith [mul_nonneg h2 hy, mul_le_mul_of_nonneg_right h3.le hy]
  · nlinarith [mul_nonneg h4 (by linarith : (0:ℝ) ≤ area.z - z_offset)]
  · nlinarith [mul_le_mul_of_nonneg_right h5.le (by linarith : (0:ℝ) ≤ area.z - z_offset)]
  · ring
  · ring
  · ring

/-- Witness for claim C4 at the all-zero RNG stream and the script's
own bounds. -/
theorem claim_C4_witness :
    ((∀ m, 0 ≤ rng0 m ∧ rng0 m < 1) ∧ 0 ≤ PLACING_AREA_RANGE.x ∧
      0 ≤ PLACING_AREA_RANGE.y ∧ Z_OFFSET ≤ PLACING_AREA_RANGE.z) ∧
    (((get_random_location rng0 0 PLACING_AREA_RANGE Z_OFFSET).x
        ∈ Set.Icc (-PLACING_AREA_RANGE.x) PLACING_AREA_RANGE.x ∧
      (get_random_location rng0 0 PLACING_AREA_RANGE Z_OFFSET).y
        ∈ Set.Icc (-PLACING_AREA_RANGE.y) PLACING_AREA_RANGE.y ∧
      (get_random_location rng0 0 PLACING_AREA_RANGE Z_OFFSET).z
        ∈ Set.Icc Z_OFFSET PLACING_AREA_RANGE.z) ∧
     ((get_random_location rng0 0 PLACING_AREA_RANGE Z_OFFSET).x
        = uniformDraw (-PLACING_AREA_RANGE.x) PLACING_AREA_RANGE.x (rng0 0) ∧
      (get_random_location rng0 0 PLACING_AREA_RANGE Z_OFFSET).y
        = uniformDraw (-PLACING_AREA_RANGE.y) PLACING_AREA_RANGE.y (rng0 1) ∧
      (get_random_location rng0 0 PLACING_AREA_RANGE Z_OFFSET).z
        = uniformDraw Z_OFFSET PLACING_AREA_RANGE.z (rng0 2))) :=
  ⟨⟨fun m => by constructor <;> norm_num [rng0],
      by norm_num [PLACING_AREA_RANGE], by norm_num [PLACING_AREA_RANGE],
      by norm_num [PLACING_AREA_RANGE, Z_OFFSET]⟩,
    claim_C4_location_bounds rng0 0 PLACING_AREA_RANGE Z_OFFSET
      (fun m => by constructor <;> norm_num [rng0])
      (by norm_num [PLACING_AREA_RANGE]) (by norm_num [PLACING_AREA_RANGE])
      (by norm_num [PLACING_AREA_RANGE, Z_OFFSET])⟩

/-- Claim C5: the retry loop terminates for every index with at most
`maxTrials` sampled poses — the RNG position advances by exactly six
values per sampled pose, `t ≤ maxTrials` poses in total per index — and
the whole run consumes at most `copies * maxTrials` samples, i.e. at
most `6 * (copies * maxTrials)` RNG values. -/
theorem claim_C5_retry_bound {B : Type} (L : BvhLib B) (g : Geom) (copies maxT : ℕ)
    (area : Vec3) (zOff : ℝ) (rng : ℕ → ℝ) :
    (run L g copies maxT area zOff rng).k ≤ 6 * (copies * maxT) ∧
    ∀ (nm : String) (k : ℕ) (copieds : List (ObjWithBvh B)),
      ∃ t, t ≤ maxT ∧
        (place_loop L g nm area zOff rng maxT 1 k copieds).2.1 = k + 6 * t := by
  constructor
  · have h := placeAll_k_le L g area zOff rng maxT copies 0 0 [] []
    simpa [run] using h
  · intro nm k copieds
    exact place_loop_k L g nm area zOff rng maxT 1 k copieds

/-- Claim C6: the returned placement set contains at most `copies`
entries, each loop index appending at most one accepted instance. -/
theorem claim_C6_cardinality {B : Type} (L : BvhLib B) (g : Geom) (copies maxT : ℕ)
    (area : Vec3) (zOff : ℝ) (rng : ℕ → ℝ) :
    (run L g copies maxT area zOff rng).copieds.length ≤ copies := by
  have h := placeAll_length L g area zOff rng maxT copies 0 0 [] []
  simpa [run] using h

/-- Claim C7: an index reported as not placeable contributes no instance
to the placement set — no accepted instance bears its name — and the run
nevertheless completes, every requested index being accounted for either
as accepted or as skipped. -/
theorem claim_C7_abandonment {B : Type} (L : BvhLib B) (g : Geom) (copies maxT : ℕ)
    (area : Vec3) (zOff : ℝ) (rng : ℕ → ℝ) (i0 : ℕ)
    (h : i0 ∈ (run L g copies maxT area zOff rng).skipped) :
    (∀ c ∈ (run L g copies maxT area zOff rng).copieds, c.name ≠ copiedName i0) ∧
    (run L g copies maxT area zOff rng).copieds.length +
      (run L g copies maxT area zOff rng).skipped.length = copies := by
  constructor
  · intro c hc hcn
    simp only [run] at h hc
    rcases placeAll_copieds_mem L g area zOff rng maxT copies 0 0 [] []
        (fun x hx => absurd hx (List.not_mem_nil x)) c hc with h1 | ⟨j, _, hn, hns⟩
    · exact absurd h1 (List.not_mem_nil c)
    · rw [hn] at hcn
      have hj0 := copiedName_injective hcn
      subst hj0
      exact hns h
  · have h2 := placeAll_count L g area zOff rng maxT copies 0 0 [] []
    simpa [run] using h2

/-- Witness for claim C7: with an always-overlapping library and one
attempt per index, a concrete two-copy run accepts the first copy and
reports the second; the reported index names no accepted instance and
both indices are accounted for. -/
theorem claim_C7_witness :
    (1 ∈ (run LAll g0 2 1 PLACING_AREA_RANGE Z_OFFSET rng0).skipped) ∧
    ((∀ c ∈ (run LAll g0 2 1 PLACING_AREA_RANGE Z_OFFSET rng0).copieds,
        c.name ≠ copiedName 1) ∧
     (run LAll g0 2 1 PLACING_AREA_RANGE Z_OFFSET rng0).copieds.length +
       (run LAll g0 2 1 PLACING_AREA_RANGE Z_OFFSET rng0).skipped.length = 2) :=
  ⟨by decide, claim_C7_abandonment LAll g0 2 1 PLACING_AREA_RANGE Z_OFFSET rng0 1 (by decide)⟩

/-- Counterexample to claim C8 as stated: with malformed bounds
(`zMin = 2 > 1 = zMax`) the run raises nothing and does not stop before
sampling — it consumes six RNG values (a full pose sample) and even
accepts a placement.  The script contains no bounds validation at all. -/
theorem claim_C8_counterexample :
    (run LNone g0 1 1 ⟨5, 5, 1⟩ 2 rng0).k = 6 ∧
    (run LNone g0 1 1 ⟨5, 5, 1⟩ 2 rng0).copieds.length = 1 := by
  constructor
  · decide
  · decide

/-- Claim C8 as amended: no configuration validation is performed; with
`zMin > zMax` the run proceeds without error — at least one pose is
sampled whenever at least one copy and one attempt are requested — and
the sampled z coordinate lies in the inverted interval `[zMax, zMin]`. -/
theorem claim_C8_amended {B : Type} (L : BvhLib B) (g : Geom) (copies maxT : ℕ)
    (area : Vec3) (z_offset : ℝ) (rng : ℕ → ℝ) (k : ℕ)
    (hz : area.z ≤ z_offset) (hr : ∀ m, 0 ≤ rng m ∧ rng m < 1)
    (hc : 1 ≤ copies) (hm : 1 ≤ maxT) :
    6 ≤ (run L g copies maxT area z_offset rng).k ∧
    (get_random_location rng k area z_offset).z ∈ Set.Icc area.z z_offset := by
  constructor
  · obtain ⟨c, rfl⟩ : ∃ c, copies = c + 1 := ⟨copies - 1, by omega⟩
    simp only [run, placeAll]
    rcases hpl : place_loop L g (copiedName 0) area z_offset rng maxT 1 0 [] with ⟨res, k2, tf⟩
    have h6 : 6 ≤ k2 := by
      have hk := place_loop_k_ge L g (copiedName 0) area z_offset rng maxT 1 0 [] hm
      rw [hpl] at hk
      simpa using hk
    cases res with
    | some o =>
      have hk2 := placeAll_k_ge L g area z_offset rng maxT c (0 + 1) k2 ([] ++ [o]) []
      dsimp only
      omega
    | none =>
      have hk2 := placeAll_k_ge L g area z_offset rng maxT c (0 + 1) k2 [] ([] ++ [0])
      dsimp only
      omega
  · obtain ⟨h4, h5⟩ := hr (k + 2)
    simp only [get_random_location, Set.mem_Icc]
    constructor
    · nlinarith [mul_le_mul_of_nonneg_right h5.le (by linarith : (0:ℝ) ≤ z_offset - area.z)]
    · nlinarith [mul_nonneg h4 (by linarith : (0:ℝ) ≤ z_offset - area.z)]

/-- Witness for the amended claim C8: the concrete malformed-bounds run
of the counterexample indeed samples, and the sampled z at the all-zero
stream lies in the inverted interval. -/
theorem claim_C8_witness :
    ((1:ℝ) ≤ 2 ∧ (∀ m, 0 ≤ rng0 m ∧ rng0 m < 1) ∧ (1:ℕ) ≤ 1) ∧
    (6 ≤ (run LNone g0 1 1 ⟨5, 5, 1⟩ 2 rng0).k ∧
     (get_random_location rng0 0 ⟨5, 5, 1⟩ 2).z ∈ Set.Icc (1:ℝ) 2) :=
  ⟨⟨by norm_num, fun m => by constructor <;> norm_num [rng0], le_rfl⟩,
    claim_C8_amended LNone g0 1 1 ⟨5, 5, 1⟩ 2 rng0 0 (by norm_num)
      (fun m => by constructor <;> norm_num [rng0]) le_rfl le_rfl⟩

/-- Claim C9: the run is a pure function of the RNG stream — two runs
whose streams agree on every position the run can read (all positions
below `6 * (copies * maxTrials)`) produce identical results: the same
accepted poses for the same indices, in the same order.  A fixed seed
fixes the stream, so two runs under the same seed coincide. -/
theorem claim_C9_determinism {B : Type} (L : BvhLib B) (g : Geom) (copies maxT : ℕ)
    (area : Vec3) (zOff : ℝ) (rng1 rng2 : ℕ → ℝ)
    (h : ∀ m, m < 6 * (copies * maxT) → rng1 m = rng2 m) :
    run L g copies maxT area zOff rng1 = run L g copies maxT area zOff rng2 := by
  simp only [run]
  exact placeAll_congr L g area zOff maxT rng1 rng2 copies 0 0 [] []
    (fun m hm => h m (by omega))

/-- Witness for claim C9: two concrete streams that agree on the first
twelve positions (all a two-copy, one-attempt run can read) but differ
beyond produce equal runs. -/
theorem claim_C9_witness :
    (∀ m, m < 6 * (2 * 1) → rng0 m = (fun n => if n < 12 then (0:ℝ) else 1) m) ∧
    run LNone g0 2 1 PLACING_AREA_RANGE Z_OFFSET rng0 =
      run LNone g0 2 1 PLACING_AREA_RANGE Z_OFFSET (fun n => if n < 12 then (0:ℝ) else 1) :=
  ⟨fun m hm => by simp only [rng0]; rw [if_pos (by omega)],
    claim_C9_determinism LNone g0 2 1 PLACING_AREA_RANGE Z_OFFSET rng0
      (fun n => if n < 12 then (0:ℝ) else 1)
      (fun m hm => by simp only [rng0]; rw [if_pos (by omega)])⟩

/-- Claim C10: `is_overlap_list` never tests a member whose name equals
the candidate's, so when every member shares the candidate's name it
returns false regardless of geometric overlap — in particular on the
empty list — and hence the first candidate of a run, facing an empty
placement set, is accepted on its very first trial (six RNG values, the
final trial counter still 1). -/
theorem claim_C10_name_self_exclusion {B : Type} (L : BvhLib B) (o : ObjWithBvh B)
    (l : List (ObjWithBvh B)) (h : ∀ c ∈ l, o.name = c.name)
    (g : Geom) (nm : String) (area : Vec3) (zOff : ℝ) (rng : ℕ → ℝ) (maxT k : ℕ)
    (hmt : 1 ≤ maxT) :
    is_overlap_list L o l = false ∧
    ∃ ob, place_loop L g nm area zOff rng maxT 1 k [] = (some ob, k + 6, 1) := by
  constructor
  · exact (is_overlap_list_eq_false L o l).mpr (fun c hc => Or.inl (h c hc))
  · obtain ⟨f, rfl⟩ : ∃ f, maxT = f + 1 := ⟨maxT - 1, by omega⟩
    exact ⟨_, rfl⟩

/-- Witness for claim C10: a candidate sharing its name with the single
(always geometrically overlapping) member of the comparison list is
reported non-overlapping, and a first candidate against the empty set is
accepted on trial 1. -/
theorem claim_C10_witness :
    (∀ c ∈ [ObjWithBvh.mk (copiedName 0) ⟨0, 0, 0⟩ ⟨0, 0, 0⟩ ()],
      (ObjWithBvh.mk (copiedName 0) ⟨1, 1, 1⟩ ⟨0, 0, 0⟩ ()).name = c.name) ∧
    (is_overlap_list LAll (ObjWithBvh.mk (copiedName 0) ⟨1, 1, 1⟩ ⟨0, 0, 0⟩ ())
        [ObjWithBvh.mk (copiedName 0) ⟨0, 0, 0⟩ ⟨0, 0, 0⟩ ()] = false ∧
     ∃ ob, place_loop LAll g0 (copiedName 0) PLACING_AREA_RANGE Z_OFFSET rng0 1 1 0 []
        = (some ob, 0 + 6, 1)) :=
  ⟨fun c hc => by rw [List.mem_singleton] at hc; rw [hc],
    claim_C10_name_self_exclusion LAll
      (ObjWithBvh.mk (copiedName 0) ⟨1, 1, 1⟩ ⟨0, 0, 0⟩ ())
      [ObjWithBvh.mk (copiedName 0) ⟨0, 0, 0⟩ ⟨0, 0, 0⟩ ()]
      (fun c hc => by rw [List.mem_singleton] at hc; rw [hc])
      g0 (copiedName 0) PLACING_AREA_RANGE Z_OFFSET rng0 1 0 le_rfl⟩

end Placing
